import Mathlib

/-!
Shallow embedding of the resource-timeline layout engine of
`src/components/gantt/GanttChart.tsx`.

JavaScript numbers are modelled as rationals (`ℚ`); all arithmetic the
component performs on segment data (additions, subtractions, divisions by
the constant 8, multiplications by 30, `Math.max`, `Math.floor`, `%` on
nonnegative operands) is exact on the values the claims concern, so the
rational model coincides with the float semantics there.

Optional record fields of `ScheduledTaskSegment` (the TypeScript interface
allows `null`/`undefined`) are modelled with `Option`.  `Map` iteration and
insertion order is modelled with association lists that append new keys at
the end, which is exactly the JavaScript `Map` insertion-order contract.
`Array.prototype.sort` (stable in modern engines) is modelled as a stable
insertion sort.
-/

namespace Gantt

/-- The `resource_category` union type `'Machine' | 'Software' | 'Unknown'`. -/
inductive Category where
  | Machine
  | Software
  | Unknown
deriving DecidableEq, Repr

/-- The `ScheduledTaskSegment` input record.  Fields that the component
guards with `== null` checks or `||` fallbacks are `Option`s. -/
structure ScheduledTaskSegment where
  id : ℤ
  originalRequirementId : Option ℤ
  resource_id : Option ℤ
  resource_name : Option String
  machine_name : Option String
  resource_category : Option Category
  segment_hours : Option ℚ
  total_training_hours : Option ℚ
  start_day : Option ℚ
  duration_days : Option ℚ
  start_hour_offset : Option ℚ
deriving DecidableEq, Repr

/-- `DAY_WIDTH = 30` (px). -/
def DAY_WIDTH : ℚ := 30

/-- `RESOURCE_HEADER_HEIGHT = 40` (px). -/
def RESOURCE_HEADER_HEIGHT : ℕ := 40

/-- `MACHINE_ROW_HEIGHT = 30` (px). -/
def MACHINE_ROW_HEIGHT : ℕ := 30

/-- `DAILY_HOUR_LIMIT = 8`. -/
def DAILY_HOUR_LIMIT : ℚ := 8

/-- `daysPerMonth = 30`. -/
def daysPerMonth : ℕ := 30

/-- `seg.machine_name || "Unknown Machine"`: JavaScript `||` also replaces
the empty string (falsy). -/
def machineNameOf (s : ScheduledTaskSegment) : String :=
  match s.machine_name with
  | none => "Unknown Machine"
  | some n => if n = "" then "Unknown Machine" else n

/-- `seg.resource_name || ("Resource " + seg.resource_id)`. -/
def resourceNameOf (s : ScheduledTaskSegment) (rid : ℤ) : String :=
  match s.resource_name with
  | none => "Resource " ++ toString rid
  | some n => if n = "" then "Resource " ++ toString rid else n

/-- One entry of `ResourceGroup.machines`. -/
structure MachineGroup where
  machineName : String
  displayHours : ℚ
  requirements : List ScheduledTaskSegment
  resourceCategory : Option Category
deriving DecidableEq, Repr

/-- A `ResourceGroup`. -/
structure ResourceGroup where
  resourceId : ℤ
  resourceName : String
  machines : List MachineGroup
deriving DecidableEq, Repr

/-- Insert a segment into the machine list of its resource group: find the
entry whose `machineName` matches (creating one at the end with
`displayHours = 0` and the segment's `resource_category` if absent) and push
the segment onto its `requirements`. -/
def addMachineSeg (s : ScheduledTaskSegment) : List MachineGroup → List MachineGroup
  | [] => [{ machineName := machineNameOf s, displayHours := 0,
             requirements := [s], resourceCategory := s.resource_category }]
  | m :: rest =>
    if m.machineName = machineNameOf s then
      { m with requirements := m.requirements ++ [s] } :: rest
    else
      m :: addMachineSeg s rest

/-- Insert a segment (whose `resource_id` is `some rid`) into the group list,
creating the group at the end on first sight (the `Map` insertion-order
contract). -/
def addSegToGroups (s : ScheduledTaskSegment) (rid : ℤ) :
    List ResourceGroup → List ResourceGroup
  | [] => [{ resourceId := rid, resourceName := resourceNameOf s rid,
             machines := addMachineSeg s [] }]
  | g :: rest =>
    if g.resourceId = rid then
      { g with machines := addMachineSeg s g.machines } :: rest
    else
      g :: addSegToGroups s rid rest

/-- One step of the first `requirements.forEach` of the `resourceGroups`
memo: segments with `resource_id == null` are skipped. -/
def addToGroups (gs : List ResourceGroup) (s : ScheduledTaskSegment) :
    List ResourceGroup :=
  match s.resource_id with
  | none => gs
  | some rid => addSegToGroups s rid gs

/-- The grouping pass before `displayHours` and sorting are applied. -/
def rawGroups (reqs : List ScheduledTaskSegment) : List ResourceGroup :=
  reqs.foldl addToGroups []

/-- One step of building the `uniqueTasks` map: first occurrence of each
non-null `originalRequirementId` records that segment's
`total_training_hours`. -/
def addUniqueTask (acc : List (ℤ × Option ℚ)) (s : ScheduledTaskSegment) :
    List (ℤ × Option ℚ) :=
  match s.originalRequirementId with
  | none => acc
  | some tid =>
    if acc.any (fun p => p.1 == tid) then acc
    else acc ++ [(tid, s.total_training_hours)]

/-- The `uniqueTasks` map of the `displayHours` computation, as an
insertion-ordered association list. -/
def uniqueTasksPairs (segs : List ScheduledTaskSegment) : List (ℤ × Option ℚ) :=
  segs.foldl addUniqueTask []

/-- `Array.from(uniqueTasks.values()).reduce((sum, h) => sum + (h || 0), 0)`. -/
def displayHoursOf (segs : List ScheduledTaskSegment) : ℚ :=
  (uniqueTasksPairs segs).foldl (fun sum p => sum + p.2.getD 0) 0

/-- `a.resourceCategory || 'Machine'`: only a missing category is falsy;
the string `'Unknown'` is truthy and is kept as is. -/
def effCat (c : Option Category) : Category :=
  c.getD Category.Machine

/-- A model of `String.prototype.localeCompare` restricted to its sign,
using code-point lexicographic order (`String.lt` is exactly the
lexicographic order on the character list). -/
def strCompare (a b : String) : Int :=
  if a.toList < b.toList then -1 else if b.toList < a.toList then 1 else 0

/-- The comparator passed to `group.machines.sort`. -/
def machineCompare (a b : MachineGroup) : Int :=
  if effCat a.resourceCategory ≠ effCat b.resourceCategory then
    if effCat a.resourceCategory = Category.Machine then -1 else 1
  else
    strCompare a.machineName b.machineName

/-- Insert `x` into an already processed list, before the first element `y`
with `cmp x y < 0` (so equal elements keep their original relative order). -/
def sortInsert (cmp : α → α → Int) (x : α) : List α → List α
  | [] => [x]
  | y :: ys => if cmp x y < 0 then x :: y :: ys else y :: sortInsert cmp x ys

/-- Stable sort modelling `Array.prototype.sort(comparator)`. -/
def stableSort (cmp : α → α → Int) (l : List α) : List α :=
  l.foldl (fun acc x => sortInsert cmp x acc) []

/-- The second pass of the `resourceGroups` memo on one machine entry:
`machine.displayHours = ...`. -/
def finalizeMachine (m : MachineGroup) : MachineGroup :=
  { m with displayHours := displayHoursOf m.requirements }

/-- The second pass on one group: set every `displayHours`, then
`group.machines.sort(...)`. -/
def finalizeGroup (g : ResourceGroup) : ResourceGroup :=
  { g with machines := stableSort machineCompare (g.machines.map finalizeMachine) }

/-- The complete `resourceGroups` memo. -/
def resourceGroups (reqs : List ScheduledTaskSegment) : List ResourceGroup :=
  (rawGroups reqs).map finalizeGroup

/-- `totalGridHeight`: sum over groups of the header height plus one machine
row height per machine. -/
def totalGridHeight (reqs : List ScheduledTaskSegment) : ℕ :=
  (resourceGroups reqs).foldl
    (fun height g => height + RESOURCE_HEADER_HEIGHT +
      g.machines.length * MACHINE_ROW_HEIGHT) 0

/-- `getDayPosition`: month and day-of-month on the synthetic 30-day
calendar.  The JavaScript `%` equals `a - 30 * Math.floor(a / 30)` here
because its left operand `validStartDay - 1` is nonnegative. -/
def getDayPosition (startDay : ℚ) : ℤ × ℚ :=
  let validStartDay := max 1 startDay
  (⌊(validStartDay - 1) / (daysPerMonth : ℚ)⌋ + 1,
   (validStartDay - 1) - (daysPerMonth : ℚ) * ⌊(validStartDay - 1) / (daysPerMonth : ℚ)⌋ + 1)

/-- `isWeekend`.  Lean's `%` on `ℤ` agrees with the JavaScript remainder
whenever the left operand is nonnegative, which holds for every call the
component makes (`month ≥ 1`, `day ≥ 1`). -/
def isWeekend (workOnSaturday workOnSunday : Bool) (month day : ℤ) : Bool :=
  let dayOfYear := (month - 1) * (daysPerMonth : ℤ) + day
  let dayOfWeek := (dayOfYear - 1) % 7
  (dayOfWeek == 5 && !workOnSaturday) || (dayOfWeek == 6 && !workOnSunday)

/-- A rendered segment (`TaskRenderInfo`): the segment spread together with
its computed geometry. -/
structure TaskRenderInfo where
  seg : ScheduledTaskSegment
  top : ℕ
  left : ℚ
  width : ℚ
  month : ℤ
  dayOfMonth : ℚ
deriving DecidableEq, Repr

/-- A `TotalEngagementBar`. -/
structure TotalEngagementBar where
  resourceId : ℤ
  resourceName : String
  travelStartDay : ℚ
  travelEndDay : ℚ
  totalDuration : ℚ
  top : ℕ
deriving DecidableEq, Repr

/-- The per-segment body of the render loop: the safety check on the four
required fields, then the geometry. -/
def renderSeg (top : ℕ) (s : ScheduledTaskSegment) : Option TaskRenderInfo :=
  match s.start_day, s.resource_id, s.start_hour_offset, s.segment_hours with
  | some d, some _, some off, some h =>
    let p := getDayPosition d
    let baseLeft := (max 1 d - 1) * DAY_WIDTH
    let hourOffsetPixels := off / DAILY_HOUR_LIMIT * DAY_WIDTH
    let w := h / DAILY_HOUR_LIMIT * DAY_WIDTH
    some { seg := s, top := top, left := baseLeft + hourOffsetPixels,
           width := max w 4, month := p.1, dayOfMonth := p.2 }
  | _, _, _, _ => none

/-- The min/max contribution of one segment to `resourceMinMax[r]`:
`(start_day, start_day + duration_days - 1)` when the segment has a
`resource_id` equal to `r`, a `start_day` and a `duration_days`. -/
def mmValid (r : ℤ) (s : ScheduledTaskSegment) : Option (ℚ × ℚ) :=
  match s.resource_id, s.start_day, s.duration_days with
  | some r', some d, some n => if r' = r then some (d, d + n - 1) else none
  | _, _, _ => none

/-- The `resourceMinMax` scan for one resource id: the first matching
segment initialises the record, later ones fold in with `Math.min` /
`Math.max`. -/
def resourceMinMax (reqs : List ScheduledTaskSegment) (r : ℤ) : Option (ℚ × ℚ) :=
  reqs.foldl
    (fun acc s =>
      match acc, mmValid r s with
      | none, v => v
      | some mm, none => some mm
      | some mm, some de => some (min mm.1 de.1, max mm.2 de.2))
    none

/-- The engagement bar pushed for a group, when `resourceMinMax` has an
entry for its resource. -/
def engagementOf (g : ResourceGroup) (top : ℕ) :
    Option (ℚ × ℚ) → List TotalEngagementBar
  | none => []
  | some mm =>
    let travelStartDay := mm.1 - 1
    let travelEndDay := mm.2 + 1
    let safeTravelStartDay := max 1 travelStartDay
    let totalDuration := max 1 (travelEndDay - safeTravelStartDay + 1)
    [{ resourceId := g.resourceId, resourceName := g.resourceName,
       travelStartDay := safeTravelStartDay, travelEndDay := travelEndDay,
       totalDuration := totalDuration, top := top }]

/-- The inner loop over one group's machines: each machine row renders its
segments at the current top, then advances by `MACHINE_ROW_HEIGHT`.
Returns the rendered tasks and the final top. -/
def renderMachines (top : ℕ) : List MachineGroup → List TaskRenderInfo × ℕ
  | [] => ([], top)
  | m :: rest =>
    let ts := m.requirements.filterMap (renderSeg top)
    let r := renderMachines (top + MACHINE_ROW_HEIGHT) rest
    (ts ++ r.1, r.2)

/-- The outer loop of the `tasksToRender` memo over the ordered groups:
engagement bar at the group's top, header height, machine rows. -/
def renderGroups (reqs : List ScheduledTaskSegment) :
    List ResourceGroup → ℕ → List TaskRenderInfo × List TotalEngagementBar × ℕ
  | [], top => ([], [], top)
  | g :: rest, top =>
    let bars := engagementOf g top (resourceMinMax reqs g.resourceId)
    let mres := renderMachines (top + RESOURCE_HEADER_HEIGHT) g.machines
    let grest := renderGroups reqs rest mres.2
    (mres.1 ++ grest.1, bars ++ grest.2.1, grest.2.2)

/-- `tasksToRender`. -/
def tasksToRender (reqs : List ScheduledTaskSegment) : List TaskRenderInfo :=
  (renderGroups reqs (resourceGroups reqs) 0).1

/-- `totalEngagementBars`. -/
def totalEngagementBars (reqs : List ScheduledTaskSegment) :
    List TotalEngagementBar :=
  (renderGroups reqs (resourceGroups reqs) 0).2.1

/-- A segment is placed in a group list: some group carries its resource id
and one of that group's machine entries, keyed by the segment's machine
name, stores it. -/
def SegPlaced (s : ScheduledTaskSegment) (r : ℤ) (gs : List ResourceGroup) : Prop :=
  ∃ g ∈ gs, g.resourceId = r ∧
    ∃ m ∈ g.machines, m.machineName = machineNameOf s ∧ s ∈ m.requirements

/-- The effect of one segment on the list of group keys: a new resource id
is appended at the end, a known one changes nothing (the `Map`
insertion-order contract). -/
def firstSeenStep (acc : List ℤ) (s : ScheduledTaskSegment) : List ℤ :=
  match s.resource_id with
  | none => acc
  | some rid => if rid ∈ acc then acc else acc ++ [rid]

/-- The resource ids of the input collection in first-seen order. -/
def firstSeenIds (reqs : List ScheduledTaskSegment) : List ℤ :=
  reqs.foldl firstSeenStep []

/-- The pairwise order the machine sort establishes: no non-Machine entry
ever precedes a Machine entry (missing categories count as Machine), and
entries of equal effective category are in name order. -/
def MachOrder (a b : MachineGroup) : Prop :=
  (effCat b.resourceCategory = Category.Machine →
    effCat a.resourceCategory = Category.Machine) ∧
  (effCat a.resourceCategory = effCat b.resourceCategory →
    ¬ b.machineName < a.machineName)

/-! ### Concrete inputs used by witnesses and counterexamples -/

/-- A fully valid segment: startDay 1, startHourOffset 4, segmentHours 4. -/
def segEx1 : ScheduledTaskSegment :=
  { id := 1, originalRequirementId := none, resource_id := some 1,
    resource_name := some "R", machine_name := some "Lathe",
    resource_category := some Category.Machine, segment_hours := some 4,
    total_training_hours := none, start_day := some 1, duration_days := some 1,
    start_hour_offset := some 4 }

/-- The rendered form of `segEx1` alone. -/
def taskEx1 : TaskRenderInfo :=
  { seg := segEx1, top := 40, left := 15, width := 15, month := 1, dayOfMonth := 1 }

/-- The engagement bar of `segEx1` alone. -/
def barEx1 : TotalEngagementBar :=
  { resourceId := 1, resourceName := "R", travelStartDay := 1, travelEndDay := 2,
    totalDuration := 2, top := 0 }

/-- A `Lathe` item of category Machine. -/
def segLathe : ScheduledTaskSegment := { segEx1 with id := 11, machine_name := some "Lathe" }

/-- A `CAD` item of category Software. -/
def segCAD : ScheduledTaskSegment :=
  { segEx1 with
    id := 12, machine_name := some "CAD",
    resource_category := some Category.Software }

/-- A `Drill` item of category Machine. -/
def segDrill : ScheduledTaskSegment := { segEx1 with id := 13, machine_name := some "Drill" }

/-- An `Alpha` item of category Unknown. -/
def segAlpha : ScheduledTaskSegment :=
  { segEx1 with
    id := 14, machine_name := some "Alpha",
    resource_category := some Category.Unknown }

/-- A `Beta` item of category Machine. -/
def segBeta : ScheduledTaskSegment := { segEx1 with id := 15, machine_name := some "Beta" }

/-- The effective category the claim asserts: both a missing category and
`Unknown` collapse to `Machine`.  Modelled from the spec sentence
“category `Unknown` treated as `Machine` for ordering purposes”. -/
def claimedEffCat (c : Option Category) : Category :=
  match c with
  | some Category.Software => Category.Software
  | _ => Category.Machine

/-- The group produced by `[segLathe]` alone. -/
def groupLathe : ResourceGroup :=
  { resourceId := 1, resourceName := "R",
    machines := [{
      machineName := "Lathe", displayHours := 0,
      requirements := [segLathe], resourceCategory := some Category.Machine }] }

/-- Engagement scenario: one segment on days 3–4. -/
def segC3a : ScheduledTaskSegment :=
  { segEx1 with id := 31, start_day := some 3, duration_days := some 2 }

/-- Engagement scenario: one segment on day 10. -/
def segC3b : ScheduledTaskSegment :=
  { segEx1 with id := 32, start_day := some 10, duration_days := some 1 }

/-- First slice of task 10 (8 total hours). -/
def segC4a : ScheduledTaskSegment :=
  { segEx1 with
    id := 41, originalRequirementId := some 10,
    total_training_hours := some 8 }

/-- Second slice of task 10 (8 total hours — must not double-count). -/
def segC4b : ScheduledTaskSegment :=
  { segEx1 with
    id := 42, originalRequirementId := some 10,
    total_training_hours := some 8, start_day := some 2 }

/-- Single slice of task 11 (3 total hours). -/
def segC4c : ScheduledTaskSegment :=
  { segEx1 with
    id := 43, originalRequirementId := some 11,
    total_training_hours := some 3, start_day := some 3 }

/-- Expected total hours per task id for the dedup scenario. -/
def hoursC4 (tid : ℤ) : ℚ := if tid = 10 then 8 else 3

/-- The machine entry produced by the dedup scenario. -/
def machineC4 : MachineGroup :=
  { machineName := "Lathe", displayHours := 11,
    requirements := [segC4a, segC4b, segC4c],
    resourceCategory := some Category.Machine }

/-- The group produced by the dedup scenario. -/
def groupC4 : ResourceGroup :=
  { resourceId := 1, resourceName := "R", machines := [machineC4] }

/-- A malformed segment: `start_hour_offset` missing. -/
def segBad7 : ScheduledTaskSegment := { segEx1 with id := 71, start_hour_offset := none }

/-- A valid companion of `segBad7` on the same resource and machine. -/
def segGood7 : ScheduledTaskSegment := { segEx1 with id := 72 }

/-- A segment with grouping and min/max fields but no hour offset. -/
def segBad9 : ScheduledTaskSegment :=
  { segEx1 with
    id := 91, start_day := some 3, duration_days := some 2,
    start_hour_offset := none }

/-- A segment without a machine name. -/
def segNoName : ScheduledTaskSegment := { segEx1 with id := 81, machine_name := none }


/-! ### Lemmas about `renderSeg` -/

/-- Everything `renderSeg` promises about a produced entry: the segment is
kept whole, the top is the one passed in, the four guarded fields are
present, and left/width follow the horizontal-layout formulas. -/
theorem renderSeg_spec {top : ℕ} {s : ScheduledTaskSegment} {t : TaskRenderInfo}
    (h : renderSeg top s = some t) :
    t.seg = s ∧ t.top = top ∧
      ∃ d off hh, s.start_day = some d ∧ s.start_hour_offset = some off ∧
        s.segment_hours = some hh ∧ s.resource_id.isSome = true ∧
        t.left = (max 1 d - 1) * DAY_WIDTH + off / DAILY_HOUR_LIMIT * DAY_WIDTH ∧
        t.width = max (hh / DAILY_HOUR_LIMIT * DAY_WIDTH) 4 := by
  unfold renderSeg at h
  cases hd : s.start_day with
  | none => rw [hd] at h; exact absurd h (by simp)
  | some d =>
    cases hr : s.resource_id with
    | none => rw [hd, hr] at h; exact absurd h (by simp)
    | some r =>
      cases ho : s.start_hour_offset with
      | none => rw [hd, hr, ho] at h; exact absurd h (by simp)
      | some off =>
        cases hh : s.segment_hours with
        | none => rw [hd, hr, ho, hh] at h; exact absurd h (by simp)
        | some hrs =>
          rw [hd, hr, ho, hh] at h
          simp only [Option.some.injEq] at h
          refine ⟨by rw [← h], by rw [← h], d, off, hrs, rfl, rfl, rfl, by simp [hr],
            by rw [← h], by rw [← h]⟩

/-- A segment with the four guarded fields present is rendered. -/
theorem renderSeg_isSome {s : ScheduledTaskSegment} {d r off hh : _}
    (hd : s.start_day = some d) (hr : s.resource_id = some r)
    (ho : s.start_hour_offset = some off) (hh' : s.segment_hours = some hh)
    (top : ℕ) : (renderSeg top s).isSome = true := by
  unfold renderSeg
  rw [hd, hr, ho, hh']
  rfl

/-! ### Lemmas about `renderMachines` -/

/-- The final top after one group's machine rows. -/
theorem renderMachines_snd (top : ℕ) (ms : List MachineGroup) :
    (renderMachines top ms).2 = top + ms.length * MACHINE_ROW_HEIGHT := by
  induction ms generalizing top with
  | nil => simp [renderMachines]
  | cons m rest ih =>
    simp only [renderMachines, ih, List.length_cons]
    ring

/-- Every task produced by the machine loop comes from a stored segment of
one of the machines, rendered at its own `top`, and its row lies between
the starting top and the final top. -/
theorem renderMachines_forall {top : ℕ} {ms : List MachineGroup}
    {t : TaskRenderInfo} (h : t ∈ (renderMachines top ms).1) :
    (∃ m ∈ ms, ∃ s ∈ m.requirements, renderSeg t.top s = some t) ∧
      top ≤ t.top ∧ t.top + MACHINE_ROW_HEIGHT ≤ (renderMachines top ms).2 := by
  induction ms generalizing top with
  | nil => simp [renderMachines] at h
  | cons m rest ih =>
    simp only [renderMachines, List.mem_append] at h
    rcases h with h | h
    · rcases List.mem_filterMap.1 h with ⟨s, hs, hrender⟩
      have hspec := renderSeg_spec hrender
      have htop : t.top = top := hspec.2.1
      refine ⟨⟨m, List.mem_cons_self m rest, s, hs, by rw [htop]; exact hrender⟩,
        le_of_eq htop.symm, ?_⟩
      rw [htop, renderMachines_snd]
      simp only [List.length_cons]
      nlinarith [Nat.zero_le (rest.length * MACHINE_ROW_HEIGHT)]
    · rcases ih h with ⟨⟨m', hm', s, hs, hr⟩, hle, hub⟩
      exact ⟨⟨m', List.mem_cons_of_mem m hm', s, hs, hr⟩,
        le_trans (Nat.le_add_right top MACHINE_ROW_HEIGHT) hle,
        by simpa [renderMachines] using hub⟩

/-- A stored segment with the four guarded fields present yields an entry in
the machine loop's output. -/
theorem renderMachines_exists {ms : List MachineGroup} {m : MachineGroup}
    {s : ScheduledTaskSegment} (hm : m ∈ ms) (hs : s ∈ m.requirements)
    (hv : ∀ k : ℕ, (renderSeg k s).isSome = true) (top : ℕ) :
    ∃ t ∈ (renderMachines top ms).1, t.seg = s := by
  induction ms generalizing top with
  | nil => exact absurd hm (List.not_mem_nil m)
  | cons m₀ rest ih =>
    rcases List.mem_cons.1 hm with rfl | hm'
    · rcases Option.isSome_iff_exists.1 (hv top) with ⟨t, ht⟩
      refine ⟨t, ?_, (renderSeg_spec ht).1⟩
      simp only [renderMachines, List.mem_append]
      exact Or.inl (List.mem_filterMap.2 ⟨s, hs, ht⟩)
    · rcases ih hm' (top + MACHINE_ROW_HEIGHT) with ⟨t, ht, hseg⟩
      refine ⟨t, ?_, hseg⟩
      simp only [renderMachines, List.mem_append]
      exact Or.inr ht

/-! ### Lemmas about `renderGroups` -/

/-- Shifting the accumulator of the grid-height fold. -/
theorem heightFoldl_shift (gs : List ResourceGroup) (a : ℕ) :
    gs.foldl (fun height g => height + RESOURCE_HEADER_HEIGHT +
        g.machines.length * MACHINE_ROW_HEIGHT) a =
      a + gs.foldl (fun height g => height + RESOURCE_HEADER_HEIGHT +
        g.machines.length * MACHINE_ROW_HEIGHT) 0 := by
  induction gs generalizing a with
  | nil => simp
  | cons g rest ih =>
    simp only [List.foldl_cons]
    rw [ih, ih (0 + RESOURCE_HEADER_HEIGHT + g.machines.length * MACHINE_ROW_HEIGHT)]
    ring

/-- The final top of the group loop equals the starting top plus the summed
header and machine-row heights. -/
theorem renderGroups_final_top (reqs : List ScheduledTaskSegment)
    (gs : List ResourceGroup) (top : ℕ) :
    (renderGroups reqs gs top).2.2 =
      top + gs.foldl (fun height g => height + RESOURCE_HEADER_HEIGHT +
        g.machines.length * MACHINE_ROW_HEIGHT) 0 := by
  induction gs generalizing top with
  | nil => simp [renderGroups]
  | cons g rest ih =>
    simp only [renderGroups, List.foldl_cons, ih, renderMachines_snd]
    rw [heightFoldl_shift rest (0 + RESOURCE_HEADER_HEIGHT + g.machines.length * MACHINE_ROW_HEIGHT)]
    ring

/-- Every task of the group loop comes from a stored segment of a machine of
one of the groups, and its row sits strictly below the group header band and
above the final top. -/
theorem renderGroups_forall_tasks {reqs : List ScheduledTaskSegment}
    {gs : List ResourceGroup} {top : ℕ} {t : TaskRenderInfo}
    (h : t ∈ (renderGroups reqs gs top).1) :
    (∃ g ∈ gs, ∃ m ∈ g.machines, ∃ s ∈ m.requirements, renderSeg t.top s = some t) ∧
      top + RESOURCE_HEADER_HEIGHT ≤ t.top ∧
      t.top + MACHINE_ROW_HEIGHT ≤ (renderGroups reqs gs top).2.2 := by
  induction gs generalizing top with
  | nil => simp [renderGroups] at h
  | cons g rest ih =>
    simp only [renderGroups, List.mem_append] at h
    rcases h with h | h
    · rcases renderMachines_forall h with ⟨⟨m, hm, s, hs, hr⟩, hle, hub⟩
      refine ⟨⟨g, List.mem_cons_self g rest, m, hm, s, hs, hr⟩, hle, ?_⟩
      calc t.top + MACHINE_ROW_HEIGHT
          ≤ (renderMachines (top + RESOURCE_HEADER_HEIGHT) g.machines).2 := hub
        _ ≤ (renderGroups reqs rest (renderMachines (top + RESOURCE_HEADER_HEIGHT) g.machines).2).2.2 := by
            rw [renderGroups_final_top]; exact Nat.le_add_right _ _
        _ = (renderGroups reqs (g :: rest) top).2.2 := by
            simp [renderGroups]
    · rcases ih h with ⟨⟨g', hg', rest'⟩, hle, hub⟩
      refine ⟨⟨g', List.mem_cons_of_mem g hg', rest'⟩, ?_, ?_⟩
      · rw [renderMachines_snd] at hle
        omega
      · simpa [renderGroups] using hub

/-- A stored segment with the four guarded fields present yields an entry in
the group loop's output. -/
theorem renderGroups_exists_task {reqs : List ScheduledTaskSegment}
    {gs : List ResourceGroup} {g : ResourceGroup} {m : MachineGroup}
    {s : ScheduledTaskSegment} (hg : g ∈ gs) (hm : m ∈ g.machines)
    (hs : s ∈ m.requirements) (hv : ∀ k : ℕ, (renderSeg k s).isSome = true)
    (top : ℕ) : ∃ t ∈ (renderGroups reqs gs top).1, t.seg = s := by
  induction gs generalizing top with
  | nil => exact absurd hg (List.not_mem_nil g)
  | cons g₀ rest ih =>
    rcases List.mem_cons.1 hg with rfl | hg'
    · rcases renderMachines_exists hm hs hv (top + RESOURCE_HEADER_HEIGHT) with ⟨t, ht, hseg⟩
      refine ⟨t, ?_, hseg⟩
      simp only [renderGroups, List.mem_append]
      exact Or.inl ht
    · rcases ih hg' (renderMachines (top + RESOURCE_HEADER_HEIGHT) g₀.machines).2 with ⟨t, ht, hseg⟩
      refine ⟨t, ?_, hseg⟩
      simp only [renderGroups, List.mem_append]
      exact Or.inr ht

/-- Every engagement bar of the group loop belongs to one of the groups,
carries the fields computed from that group's `resourceMinMax` entry, and
sits at that group's header top, below the final top. -/
theorem renderGroups_forall_bars {reqs : List ScheduledTaskSegment}
    {gs : List ResourceGroup} {top : ℕ} {b : TotalEngagementBar}
    (h : b ∈ (renderGroups reqs gs top).2.1) :
    (∃ g ∈ gs, ∃ mn mx : ℚ, resourceMinMax reqs g.resourceId = some (mn, mx) ∧
        b.resourceId = g.resourceId ∧ b.travelStartDay = max 1 (mn - 1) ∧
        b.travelEndDay = mx + 1 ∧
        b.totalDuration = max 1 (b.travelEndDay - b.travelStartDay + 1)) ∧
      top ≤ b.top ∧
      b.top + RESOURCE_HEADER_HEIGHT ≤ (renderGroups reqs gs top).2.2 := by
  induction gs generalizing top with
  | nil => simp [renderGroups] at h
  | cons g rest ih =>
    simp only [renderGroups, List.mem_append] at h
    rcases h with h | h
    · rcases hmm : resourceMinMax reqs g.resourceId with _ | ⟨mn, mx⟩ <;>
        rw [hmm] at h
      · simp [engagementOf] at h
      · simp only [engagementOf, List.mem_singleton] at h
        subst h
        refine ⟨⟨g, List.mem_cons_self g rest, mn, mx, hmm, rfl, rfl, rfl, rfl⟩,
          Nat.le_refl top, ?_⟩
        show top + RESOURCE_HEADER_HEIGHT ≤ (renderGroups reqs (g :: rest) top).2.2
        rw [renderGroups_final_top]
        simp only [List.foldl_cons]
        rw [heightFoldl_shift rest]
        omega
    · rcases ih h with ⟨hex, hle, hub⟩
      refine ⟨?_, ?_, by simpa [renderGroups] using hub⟩
      · rcases hex with ⟨g', hg', rest'⟩
        exact ⟨g', List.mem_cons_of_mem g hg', rest'⟩
      · refine le_trans ?_ hle
        rw [renderMachines_snd]
        calc top ≤ top + RESOURCE_HEADER_HEIGHT := Nat.le_add_right _ _
          _ ≤ top + RESOURCE_HEADER_HEIGHT + g.machines.length * MACHINE_ROW_HEIGHT :=
              Nat.le_add_right _ _

/-- Counting engagement bars by resource id: one per group whose resource
has a `resourceMinMax` entry. -/
theorem renderGroups_bars_countP (reqs : List ScheduledTaskSegment)
    (gs : List ResourceGroup) (top : ℕ) (r : ℤ) :
    (renderGroups reqs gs top).2.1.countP (fun b => b.resourceId == r) =
      gs.countP (fun g => g.resourceId == r &&
        (resourceMinMax reqs g.resourceId).isSome) := by
  induction gs generalizing top with
  | nil => simp [renderGroups]
  | cons g rest ih =>
    simp only [renderGroups, List.countP_append, List.countP_cons]
    rw [ih]
    rcases hmm : resourceMinMax reqs g.resourceId with _ | ⟨mn, mx⟩
    · simp [engagementOf]
    · simp only [engagementOf, List.countP_cons, List.countP_nil]
      by_cases hr : g.resourceId = r
      · simp [hr]
        ring
      · simp [hr]

/-! ### Membership lemmas for the grouping pass -/

/-- `addMachineSeg` stores the new segment under its machine name. -/
theorem addMachineSeg_places (s : ScheduledTaskSegment) (ms : List MachineGroup) :
    ∃ m ∈ addMachineSeg s ms, m.machineName = machineNameOf s ∧
      s ∈ m.requirements := by
  induction ms with
  | nil => exact ⟨_, List.mem_singleton.2 rfl, rfl, List.mem_singleton.2 rfl⟩
  | cons m₀ rest ih =>
    by_cases hname : m₀.machineName = machineNameOf s
    · refine ⟨{ m₀ with requirements := m₀.requirements ++ [s] }, ?_, hname, ?_⟩
      · simp [addMachineSeg, hname]
      · simp
    · rcases ih with ⟨m, hm, hn, hsin⟩
      refine ⟨m, ?_, hn, hsin⟩
      simp only [addMachineSeg, if_neg hname]
      exact List.mem_cons_of_mem m₀ hm

/-- `addMachineSeg` never removes a stored segment nor renames an entry. -/
theorem addMachineSeg_keeps {s₀ : ScheduledTaskSegment} {ms : List MachineGroup}
    {m : MachineGroup} (hm : m ∈ ms) (hs : s₀ ∈ m.requirements)
    (s : ScheduledTaskSegment) :
    ∃ m' ∈ addMachineSeg s ms, m'.machineName = m.machineName ∧
      s₀ ∈ m'.requirements := by
  induction ms with
  | nil => exact absurd hm (List.not_mem_nil m)
  | cons m₀ rest ih =>
    rcases List.mem_cons.1 hm with rfl | hm'
    · by_cases hname : m.machineName = machineNameOf s
      · refine ⟨{ m with requirements := m.requirements ++ [s] }, ?_, rfl, ?_⟩
        · simp [addMachineSeg, hname]
        · exact List.mem_append_left _ hs
      · refine ⟨m, ?_, rfl, hs⟩
        simp only [addMachineSeg, if_neg hname]
        exact List.mem_cons_self m _
    · by_cases hname : m₀.machineName = machineNameOf s
      · refine ⟨m, ?_, rfl, hs⟩
        simp only [addMachineSeg, if_pos hname]
        exact List.mem_cons_of_mem _ hm'
      · rcases ih hm' with ⟨m', hm'', hn, hsin⟩
        refine ⟨m', ?_, hn, hsin⟩
        simp only [addMachineSeg, if_neg hname]
        exact List.mem_cons_of_mem m₀ hm''

/-- Adding any segment preserves placement of already placed segments. -/
theorem segPlaced_addToGroups {s₀ : ScheduledTaskSegment} {r₀ : ℤ}
    {gs : List ResourceGroup} (h : SegPlaced s₀ r₀ gs)
    (s : ScheduledTaskSegment) : SegPlaced s₀ r₀ (addToGroups gs s) := by
  rcases h with ⟨g, hg, hid, m, hm, hname, hsin⟩
  unfold addToGroups
  cases hr : s.resource_id with
  | none => exact ⟨g, hg, hid, m, hm, hname, hsin⟩
  | some rid =>
    clear hr
    induction gs with
    | nil => exact absurd hg (List.not_mem_nil g)
    | cons g₀ rest ih =>
      rcases List.mem_cons.1 hg with rfl | hg'
      · by_cases hmatch : g.resourceId = rid
        · rcases addMachineSeg_keeps hm hsin s with ⟨m', hm', hn, hsin'⟩
          refine ⟨{ g with machines := addMachineSeg s g.machines }, ?_, hid, m', hm',
            hn.trans hname, hsin'⟩
          simp only [addSegToGroups, if_pos hmatch]
          exact List.mem_cons_self _ _
        · refine ⟨g, ?_, hid, m, hm, hname, hsin⟩
          simp only [addSegToGroups, if_neg hmatch]
          exact List.mem_cons_self g _
      · by_cases hmatch : g₀.resourceId = rid
        · refine ⟨g, ?_, hid, m, hm, hname, hsin⟩
          simp only [addSegToGroups, if_pos hmatch]
          exact List.mem_cons_of_mem _ hg'
        · rcases ih hg' with ⟨g', hg'', hid', m', hm', hn, hsin'⟩
          refine ⟨g', ?_, hid', m', hm', hn, hsin'⟩
          simp only [addSegToGroups, if_neg hmatch]
          exact List.mem_cons_of_mem g₀ hg''

/-- Adding a segment that has a resource id places it. -/
theorem segPlaced_new {s : ScheduledTaskSegment} {r : ℤ}
    (hr : s.resource_id = some r) (gs : List ResourceGroup) :
    SegPlaced s r (addToGroups gs s) := by
  unfold addToGroups
  rw [hr]
  induction gs with
  | nil =>
    rcases addMachineSeg_places s [] with ⟨m, hm, hn, hsin⟩
    exact ⟨_, List.mem_singleton.2 rfl, rfl, m, hm, hn, hsin⟩
  | cons g₀ rest ih =>
    by_cases hmatch : g₀.resourceId = r
    · rcases addMachineSeg_places s g₀.machines with ⟨m, hm, hn, hsin⟩
      refine ⟨{ g₀ with machines := addMachineSeg s g₀.machines }, ?_, hmatch, m, hm, hn, hsin⟩
      simp only [addSegToGroups, if_pos hmatch]
      exact List.mem_cons_self _ _
    · rcases ih with ⟨g, hg, hid, m, hm, hn, hsin⟩
      refine ⟨g, ?_, hid, m, hm, hn, hsin⟩
      simp only [addSegToGroups, if_neg hmatch]
      exact List.mem_cons_of_mem g₀ hg

/-- Placement survives the rest of the grouping fold. -/
theorem segPlaced_foldl {s₀ : ScheduledTaskSegment} {r₀ : ℤ}
    {gs : List ResourceGroup} (h : SegPlaced s₀ r₀ gs)
    (reqs : List ScheduledTaskSegment) :
    SegPlaced s₀ r₀ (reqs.foldl addToGroups gs) := by
  induction reqs generalizing gs with
  | nil => exact h
  | cons s rest ih => exact ih (segPlaced_addToGroups h s)

/-- Every input segment with a resource id is placed by the grouping fold. -/
theorem segPlaced_rawGroups {reqs : List ScheduledTaskSegment}
    {s : ScheduledTaskSegment} {r : ℤ} (hmem : s ∈ reqs)
    (hr : s.resource_id = some r) : SegPlaced s r (rawGroups reqs) := by
  unfold rawGroups
  suffices h : ∀ gs : List ResourceGroup, SegPlaced s r (reqs.foldl addToGroups gs) from h []
  induction reqs with
  | nil => exact absurd hmem (List.not_mem_nil s)
  | cons s₁ rest ih =>
    intro gs
    rcases List.mem_cons.1 hmem with rfl | hmem'
    · exact segPlaced_foldl (segPlaced_new hr gs) rest
    · exact ih hmem' (addToGroups gs s₁)

/-! ### Membership through `stableSort` and finalization -/

/-- Membership through one sorted insertion. -/
theorem mem_sortInsert {α : Type} (cmp : α → α → Int) (x y : α) (l : List α) :
    y ∈ sortInsert cmp x l ↔ y = x ∨ y ∈ l := by
  induction l with
  | nil => simp [sortInsert]
  | cons z zs ih =>
    by_cases hlt : cmp x z < 0
    · simp only [sortInsert, if_pos hlt, List.mem_cons]
    · simp only [sortInsert, if_neg hlt, List.mem_cons, ih]
      tauto

/-- Membership through the stable sort. -/
theorem mem_stableSort {α : Type} (cmp : α → α → Int) (l : List α) (y : α) :
    y ∈ stableSort cmp l ↔ y ∈ l := by
  unfold stableSort
  suffices h : ∀ acc : List α,
      y ∈ l.foldl (fun acc x => sortInsert cmp x acc) acc ↔ y ∈ acc ∨ y ∈ l by
    simpa using h []
  induction l with
  | nil => simp
  | cons z zs ih =>
    intro acc
    simp only [List.foldl_cons, ih, mem_sortInsert, List.mem_cons]
    tauto

/-- The machine entries of a finalized group are exactly the finalized
machine entries of the raw group. -/
theorem mem_finalizeGroup_machines {g : ResourceGroup} {m : MachineGroup} :
    m ∈ (finalizeGroup g).machines ↔
      ∃ m₀ ∈ g.machines, m = finalizeMachine m₀ := by
  unfold finalizeGroup
  simp only [mem_stableSort, List.mem_map]
  constructor
  · rintro ⟨m₀, hm₀, rfl⟩
    exact ⟨m₀, hm₀, rfl⟩
  · rintro ⟨m₀, hm₀, rfl⟩
    exact ⟨m₀, hm₀, rfl⟩

/-- Every input segment with a resource id reaches `resourceGroups`, stored
under its machine name. -/
theorem seg_in_resourceGroups {reqs : List ScheduledTaskSegment}
    {s : ScheduledTaskSegment} {r : ℤ} (hmem : s ∈ reqs)
    (hr : s.resource_id = some r) :
    ∃ g ∈ resourceGroups reqs, g.resourceId = r ∧
      ∃ m ∈ g.machines, m.machineName = machineNameOf s ∧
        s ∈ m.requirements := by
  rcases segPlaced_rawGroups hmem hr with ⟨g, hg, hid, m, hm, hname, hsin⟩
  refine ⟨finalizeGroup g, List.mem_map_of_mem finalizeGroup hg, hid, finalizeMachine m,
    mem_finalizeGroup_machines.2 ⟨m, hm, rfl⟩, hname, hsin⟩

/-- The machine entries of every final group carry the deduplicated hour
total of their own stored segments. -/
theorem displayHours_final {reqs : List ScheduledTaskSegment}
    {g : ResourceGroup} {m : MachineGroup} (hg : g ∈ resourceGroups reqs)
    (hm : m ∈ g.machines) : m.displayHours = displayHoursOf m.requirements := by
  rcases List.mem_map.1 hg with ⟨g₀, _, rfl⟩
  rcases mem_finalizeGroup_machines.1 hm with ⟨m₀, _, rfl⟩
  rfl

/-! ### First-seen order of resource ids -/

/-- Group keys after inserting one segment with resource id `rid`. -/
theorem ids_addSegToGroups (s : ScheduledTaskSegment) (rid : ℤ)
    (gs : List ResourceGroup) :
    (addSegToGroups s rid gs).map (fun g => g.resourceId) =
      if rid ∈ gs.map (fun g => g.resourceId) then gs.map (fun g => g.resourceId)
      else gs.map (fun g => g.resourceId) ++ [rid] := by
  induction gs with
  | nil => simp [addSegToGroups]
  | cons g rest ih =>
    by_cases hmatch : g.resourceId = rid
    · simp [addSegToGroups, hmatch]
    · simp only [addSegToGroups, if_neg hmatch, List.map_cons, List.mem_cons, ih]
      have : ¬ rid = g.resourceId := fun h => hmatch h.symm
      by_cases hmem : rid ∈ rest.map (fun g => g.resourceId)
      · simp [hmem, this]
      · simp [hmem, this]

/-- Group keys after one step of the grouping fold. -/
theorem ids_addToGroups (gs : List ResourceGroup) (s : ScheduledTaskSegment) :
    (addToGroups gs s).map (fun g => g.resourceId) =
      firstSeenStep (gs.map (fun g => g.resourceId)) s := by
  unfold addToGroups firstSeenStep
  cases s.resource_id with
  | none => rfl
  | some rid => exact ids_addSegToGroups s rid gs

/-- Group keys of the whole grouping fold. -/
theorem ids_foldl (reqs : List ScheduledTaskSegment) (gs : List ResourceGroup) :
    (reqs.foldl addToGroups gs).map (fun g => g.resourceId) =
      reqs.foldl firstSeenStep (gs.map (fun g => g.resourceId)) := by
  induction reqs generalizing gs with
  | nil => rfl
  | cons s rest ih => simp only [List.foldl_cons, ih, ids_addToGroups]

/-- The final group list is keyed by the resource ids in first-seen order. -/
theorem ids_resourceGroups (reqs : List ScheduledTaskSegment) :
    (resourceGroups reqs).map (fun g => g.resourceId) = firstSeenIds reqs := by
  unfold resourceGroups rawGroups firstSeenIds
  rw [List.map_map]
  have : (fun g => g.resourceId) ∘ finalizeGroup = fun g : ResourceGroup => g.resourceId := rfl
  rw [this, ids_foldl]
  rfl

/-- One step of `firstSeenStep` membership. -/
theorem mem_firstSeenStep {r : ℤ} {acc : List ℤ} {s : ScheduledTaskSegment} :
    r ∈ firstSeenStep acc s ↔ r ∈ acc ∨ s.resource_id = some r := by
  unfold firstSeenStep
  cases hr : s.resource_id with
  | none => simp
  | some rid =>
    by_cases hmem : rid ∈ acc
    · simp only [if_pos hmem, Option.some.injEq]
      constructor
      · exact Or.inl
      · rintro (h | rfl)
        · exact h
        · exact hmem
    · simp only [if_neg hmem, List.mem_append, List.mem_singleton, Option.some.injEq]
      constructor
      · rintro (h | rfl)
        · exact Or.inl h
        · exact Or.inr rfl
      · rintro (h | rfl)
        · exact Or.inl h
        · exact Or.inr rfl

/-- Membership in the first-seen fold. -/
theorem mem_firstSeen_foldl {r : ℤ} (reqs : List ScheduledTaskSegment)
    (acc : List ℤ) :
    r ∈ reqs.foldl firstSeenStep acc ↔
      r ∈ acc ∨ ∃ s ∈ reqs, s.resource_id = some r := by
  induction reqs generalizing acc with
  | nil => simp
  | cons s rest ih =>
    simp only [List.foldl_cons, ih, mem_firstSeenStep, List.mem_cons]
    constructor
    · rintro ((h | h) | ⟨s', hs', h⟩)
      · exact Or.inl h
      · exact Or.inr ⟨s, Or.inl rfl, h⟩
      · exact Or.inr ⟨s', Or.inr hs', h⟩
    · rintro (h | ⟨s', hs' | hs', h⟩)
      · exact Or.inl (Or.inl h)
      · exact Or.inl (Or.inr (hs' ▸ h))
      · exact Or.inr ⟨s', hs', h⟩

/-- A resource id owns a group exactly when some input segment carries it. -/
theorem mem_resourceGroups_ids {r : ℤ} (reqs : List ScheduledTaskSegment) :
    r ∈ (resourceGroups reqs).map (fun g => g.resourceId) ↔
      ∃ s ∈ reqs, s.resource_id = some r := by
  rw [ids_resourceGroups]
  unfold firstSeenIds
  simpa using mem_firstSeen_foldl reqs []

/-- The first-seen fold keeps its accumulator duplicate-free. -/
theorem nodup_firstSeen_foldl (reqs : List ScheduledTaskSegment)
    {acc : List ℤ} (h : acc.Nodup) : (reqs.foldl firstSeenStep acc).Nodup := by
  induction reqs generalizing acc with
  | nil => exact h
  | cons s rest ih =>
    refine ih ?_
    unfold firstSeenStep
    cases s.resource_id with
    | none => exact h
    | some rid =>
      by_cases hmem : rid ∈ acc
      · simpa [hmem] using h
      · simp only [if_neg hmem]
        rw [List.nodup_append]
        exact ⟨h, List.nodup_singleton rid, by simpa using hmem⟩

/-- Group resource ids are pairwise distinct. -/
theorem nodup_resourceGroups_ids (reqs : List ScheduledTaskSegment) :
    ((resourceGroups reqs).map (fun g => g.resourceId)).Nodup := by
  rw [ids_resourceGroups]
  exact nodup_firstSeen_foldl reqs List.nodup_nil

/-! ### Characterization of `resourceMinMax` -/

/-- `resourceMinMax` has no entry exactly when no segment of the resource
carries both a start day and a duration. -/
theorem resourceMinMax_none_iff (reqs : List ScheduledTaskSegment) (r : ℤ) :
    resourceMinMax reqs r = none ↔ ∀ s ∈ reqs, mmValid r s = none := by
  unfold resourceMinMax
  suffices h : ∀ acc : Option (ℚ × ℚ),
      reqs.foldl (fun acc s =>
        match acc, mmValid r s with
        | none, v => v
        | some mm, none => some mm
        | some mm, some de => some (min mm.1 de.1, max mm.2 de.2)) acc = none ↔
      acc = none ∧ ∀ s ∈ reqs, mmValid r s = none by
    simpa using h none
  induction reqs with
  | nil => simp
  | cons s rest ih =>
    intro acc
    simp only [List.foldl_cons, ih, List.forall_mem_cons]
    constructor
    · rintro ⟨hstep, hrest⟩
      cases hacc : acc with
      | none =>
        rw [hacc] at hstep
        cases hmm : mmValid r s with
        | none => exact ⟨rfl, rfl, hrest⟩
        | some de => rw [hmm] at hstep; simp at hstep
      | some mm =>
        rw [hacc] at hstep
        cases hmm : mmValid r s with
        | none => rw [hmm] at hstep; simp at hstep
        | some de => rw [hmm] at hstep; simp at hstep
    · rintro ⟨hacc, hmm, hrest⟩
      subst hacc
      rw [hmm]
      exact ⟨rfl, hrest⟩

/-- Every contribution of the resource's segments is inside the computed
min/max window, and both ends are attained by some segment. -/
theorem resourceMinMax_spec {reqs : List ScheduledTaskSegment} {r : ℤ}
    {mn mx : ℚ} (h : resourceMinMax reqs r = some (mn, mx)) :
    (∀ s ∈ reqs, ∀ d e : ℚ, mmValid r s = some (d, e) → mn ≤ d ∧ e ≤ mx) ∧
      (∃ s ∈ reqs, ∃ e : ℚ, mmValid r s = some (mn, e)) ∧
      (∃ s ∈ reqs, ∃ d : ℚ, mmValid r s = some (d, mx)) := by
  unfold resourceMinMax at h
  suffices hgen : ∀ (reqs : List ScheduledTaskSegment) (acc : Option (ℚ × ℚ))
      (mn mx : ℚ),
      reqs.foldl (fun acc s =>
        match acc, mmValid r s with
        | none, v => v
        | some mm, none => some mm
        | some mm, some de => some (min mm.1 de.1, max mm.2 de.2)) acc = some (mn, mx) →
      ((∀ a b : ℚ, acc = some (a, b) → mn ≤ a ∧ b ≤ mx) ∧
        ∀ s ∈ reqs, ∀ d e : ℚ, mmValid r s = some (d, e) → mn ≤ d ∧ e ≤ mx) ∧
      (((∃ s ∈ reqs, ∃ e : ℚ, mmValid r s = some (mn, e)) ∨ ∃ b, acc = some (mn, b)) ∧
        ((∃ s ∈ reqs, ∃ d : ℚ, mmValid r s = some (d, mx)) ∨ ∃ a, acc = some (a, mx))) by
    rcases hgen reqs none mn mx h with ⟨⟨_, hb⟩, hmn, hmx⟩
    refine ⟨hb, ?_, ?_⟩
    · rcases hmn with h' | ⟨b, hb'⟩
      · exact h'
      · simp at hb'
    · rcases hmx with h' | ⟨a, ha'⟩
      · exact h'
      · simp at ha'
  clear h mn mx
  intro reqs
  induction reqs with
  | nil =>
    intro acc mn mx h
    simp only [List.foldl_nil] at h
    subst h
    exact ⟨⟨fun a b hab => by cases hab; exact ⟨le_refl _, le_refl _⟩,
      by simp⟩, Or.inr ⟨mx, rfl⟩, Or.inr ⟨mn, rfl⟩⟩
  | cons s rest ih =>
    intro acc mn mx h
    simp only [List.foldl_cons] at h
    rcases ih _ mn mx h with ⟨⟨haccb, hrestb⟩, hmn, hmx⟩
    constructor
    · constructor
      · intro a b hab
        subst hab
        cases hmm : mmValid r s with
        | none => exact haccb a b (by simp [hmm])
        | some de =>
          have := haccb (min a de.1) (max b de.2) (by simp [hmm])
          exact ⟨le_trans this.1 (min_le_left _ _), le_trans (le_max_left _ _) this.2⟩
      · rw [List.forall_mem_cons]
        refine ⟨?_, hrestb⟩
        intro d e hde
        cases hacc : acc with
        | none => exact haccb d e (by rw [hacc]; simp [hde])
        | some mm =>
          have := haccb (min mm.1 d) (max mm.2 e) (by rw [hacc]; simp [hde])
          exact ⟨le_trans this.1 (min_le_right _ _), le_trans (le_max_right _ _) this.2⟩
    · constructor
      · rcases hmn with h' | ⟨b, hb'⟩
        · rcases h' with ⟨s', hs', e, he⟩
          exact Or.inl ⟨s', List.mem_cons_of_mem s hs', e, he⟩
        · rcases acc with _ | ⟨a0, b0⟩
          · cases hmm : mmValid r s with
            | none => rw [hmm] at hb'; simp at hb'
            | some de =>
              rw [hmm] at hb'
              simp only [Option.some.injEq] at hb'
              exact Or.inl ⟨s, List.mem_cons_self s rest, b, by rw [hmm, hb']⟩
          · cases hmm : mmValid r s with
            | none =>
              rw [hmm] at hb'
              simp only [Option.some.injEq, Prod.mk.injEq] at hb'
              exact Or.inr ⟨b0, by rw [hb'.1]⟩
            | some de =>
              obtain ⟨d0, e0⟩ := de
              rw [hmm] at hb'
              simp only [Option.some.injEq, Prod.mk.injEq] at hb'
              rcases min_choice a0 d0 with hc | hc
              · refine Or.inr ⟨b0, ?_⟩
                rw [← hb'.1, hc]
              · refine Or.inl ⟨s, List.mem_cons_self s rest, e0, ?_⟩
                rw [hmm, ← hb'.1, hc]
      · rcases hmx with h' | ⟨a, ha'⟩
        · rcases h' with ⟨s', hs', d, hd⟩
          exact Or.inl ⟨s', List.mem_cons_of_mem s hs', d, hd⟩
        · rcases acc with _ | ⟨a0, b0⟩
          · cases hmm : mmValid r s with
            | none => rw [hmm] at ha'; simp at ha'
            | some de =>
              rw [hmm] at ha'
              simp only [Option.some.injEq] at ha'
              exact Or.inl ⟨s, List.mem_cons_self s rest, a, by rw [hmm, ha']⟩
          · cases hmm : mmValid r s with
            | none =>
              rw [hmm] at ha'
              simp only [Option.some.injEq, Prod.mk.injEq] at ha'
              exact Or.inr ⟨a0, by rw [ha'.2]⟩
            | some de =>
              obtain ⟨d0, e0⟩ := de
              rw [hmm] at ha'
              simp only [Option.some.injEq, Prod.mk.injEq] at ha'
              rcases max_choice b0 e0 with hc | hc
              · refine Or.inr ⟨a0, ?_⟩
                rw [← ha'.2, hc]
              · refine Or.inl ⟨s, List.mem_cons_self s rest, d0, ?_⟩
                rw [hmm, ← ha'.2, hc]

/-! ### Order produced by the machine comparator -/

/-- When the comparator sends `x` strictly before `y`. -/
theorem machineCompare_lt_iff (x y : MachineGroup) :
    machineCompare x y < 0 ↔
      (effCat x.resourceCategory ≠ effCat y.resourceCategory ∧
        effCat x.resourceCategory = Category.Machine) ∨
      (effCat x.resourceCategory = effCat y.resourceCategory ∧
        x.machineName < y.machineName) := by
  unfold machineCompare strCompare
  by_cases hne : effCat x.resourceCategory ≠ effCat y.resourceCategory
  · rw [if_pos hne]
    by_cases hM : effCat x.resourceCategory = Category.Machine
    · rw [if_pos hM]
      constructor
      · intro _
        exact Or.inl ⟨hne, hM⟩
      · intro _
        decide
    · rw [if_neg hM]
      constructor
      · intro hcon
        exact absurd hcon (by decide)
      · rintro (⟨_, h⟩ | ⟨heq, _⟩)
        · exact absurd h hM
        · exact absurd heq hne
  · rw [if_neg hne]
    push_neg at hne
    constructor
    · intro hlt0
      by_cases hlt : x.machineName.toList < y.machineName.toList
      · exact Or.inr ⟨hne, String.lt_iff_toList_lt.2 hlt⟩
      · rw [if_neg hlt] at hlt0
        by_cases hgt : y.machineName.toList < x.machineName.toList
        · rw [if_pos hgt] at hlt0
          exact absurd hlt0 (by decide)
        · rw [if_neg hgt] at hlt0
          exact absurd hlt0 (by decide)
    · rintro (⟨hcon, _⟩ | ⟨_, hname⟩)
      · exact absurd hne hcon
      · rw [if_pos (String.lt_iff_toList_lt.1 hname)]
        decide

/-- Inserting one element keeps the produced order. -/
theorem sortInsert_pairwise :
    ∀ {l : List MachineGroup}, l.Pairwise MachOrder →
      ∀ x : MachineGroup, (sortInsert machineCompare x l).Pairwise MachOrder := by
  intro l
  induction l with
  | nil =>
    intro _ x
    simp [sortInsert]
  | cons y ys ih =>
    intro h x
    rw [List.pairwise_cons] at h
    obtain ⟨hy, hys⟩ := h
    by_cases hlt : machineCompare x y < 0
    · rw [sortInsert, if_pos hlt, List.pairwise_cons]
      refine ⟨?_, List.pairwise_cons.2 ⟨hy, hys⟩⟩
      intro z hz
      rcases (machineCompare_lt_iff x y).1 hlt with ⟨hne, hxM⟩ | ⟨heq, hname⟩
      · rcases List.mem_cons.1 hz with rfl | hz'
        · exact ⟨fun _ => hxM, fun hxy => (hne hxy).elim⟩
        · refine ⟨fun _ => hxM, fun hxz => ?_⟩
          have hzM : effCat z.resourceCategory = Category.Machine := by
            rw [← hxz]; exact hxM
          have hyM : effCat y.resourceCategory = Category.Machine :=
            (hy z hz').1 hzM
          exact (hne (hxM.trans hyM.symm)).elim
      · rcases List.mem_cons.1 hz with rfl | hz'
        · refine ⟨fun hM => ?_, fun _ => lt_asymm hname⟩
          rw [heq]; exact hM
        · have hyz := hy z hz'
          refine ⟨fun hzM => ?_, fun hxz hcon => ?_⟩
          · rw [heq]; exact hyz.1 hzM
          · have hyzeq : effCat y.resourceCategory = effCat z.resourceCategory :=
              heq.symm.trans hxz
            exact hyz.2 hyzeq (lt_trans hcon hname)
    · rw [sortInsert, if_neg hlt, List.pairwise_cons]
      refine ⟨?_, ih hys x⟩
      intro z hz
      rcases (mem_sortInsert machineCompare x z ys).1 hz with rfl | hz'
      · rw [machineCompare_lt_iff, not_or] at hlt
        obtain ⟨h₁, h₂⟩ := hlt
        by_cases heq : effCat z.resourceCategory = effCat y.resourceCategory
        · refine ⟨fun hM => ?_, fun _ => ?_⟩
          · rw [← heq]; exact hM
          · intro hcon
            exact h₂ ⟨heq, hcon⟩
        · have hznM : effCat z.resourceCategory ≠ Category.Machine := by
            intro hM
            exact h₁ ⟨heq, hM⟩
          exact ⟨fun hM => (hznM hM).elim, fun hyz => (heq hyz.symm).elim⟩
      · exact hy z hz'

/-- The stable sort produces the comparator's order. -/
theorem stableSort_pairwise (l : List MachineGroup) :
    (stableSort machineCompare l).Pairwise MachOrder := by
  unfold stableSort
  suffices h : ∀ acc : List MachineGroup, acc.Pairwise MachOrder →
      (l.foldl (fun acc x => sortInsert machineCompare x acc) acc).Pairwise MachOrder from
    h [] List.Pairwise.nil
  induction l with
  | nil => exact fun acc h => h
  | cons x xs ih =>
    intro acc hacc
    exact ih (sortInsert machineCompare x acc) (sortInsert_pairwise hacc x)

/-- Every final group's machine list is in the comparator's order. -/
theorem machines_pairwise {reqs : List ScheduledTaskSegment}
    {g : ResourceGroup} (hg : g ∈ resourceGroups reqs) :
    g.machines.Pairwise MachOrder := by
  rcases List.mem_map.1 hg with ⟨g₀, _, rfl⟩
  exact stableSort_pairwise _

/-! ### Counting groups by resource id -/

/-- With pairwise distinct group keys, a predicate of the key alone counts
at most the unique group owning `r`. -/
theorem countP_groups_by_id {gs : List ResourceGroup}
    (h : (gs.map (fun g => g.resourceId)).Nodup) (c : ℤ → Bool) {r : ℤ}
    {g₀ : ResourceGroup} (hg₀ : g₀ ∈ gs) (hid : g₀.resourceId = r) :
    gs.countP (fun g => g.resourceId == r && c g.resourceId) =
      if c r then 1 else 0 := by
  induction gs with
  | nil => exact absurd hg₀ (List.not_mem_nil g₀)
  | cons g gs' ih =>
    rw [List.map_cons, List.nodup_cons] at h
    obtain ⟨hnotin, hnodup⟩ := h
    rw [List.countP_cons]
    rcases List.mem_cons.1 hg₀ with rfl | hmem
    · have hzero : gs'.countP (fun g => g.resourceId == r && c g.resourceId) = 0 := by
        refine List.countP_eq_zero.2 ?_
        intro g' hg'
        have hne : g'.resourceId ≠ r := by
          intro hre
          exact hnotin (hid ▸ hre ▸ List.mem_map_of_mem (fun g => g.resourceId) hg')
        simp [hne]
      rw [hzero, hid]
      simp
    · have hne : g.resourceId ≠ r := by
        intro hre
        exact hnotin (hre ▸ hid ▸ List.mem_map_of_mem (fun g => g.resourceId) hmem)
      rw [ih hnodup hmem]
      simp [hne]

/-! ### The deduplicated hour total -/

/-- Reduction of `addUniqueTask` on a segment without a task id. -/
theorem addUniqueTask_none {acc : List (ℤ × Option ℚ)}
    {s : ScheduledTaskSegment} (h : s.originalRequirementId = none) :
    addUniqueTask acc s = acc := by
  unfold addUniqueTask
  rw [h]

/-- Reduction of `addUniqueTask` on a segment with a task id. -/
theorem addUniqueTask_some {acc : List (ℤ × Option ℚ)}
    {s : ScheduledTaskSegment} {tid : ℤ} (h : s.originalRequirementId = some tid) :
    addUniqueTask acc s =
      if acc.any (fun p => p.1 == tid) then acc
      else acc ++ [(tid, s.total_training_hours)] := by
  unfold addUniqueTask
  rw [h]

/-- Keys recorded by one `uniqueTasks` step. -/
theorem mem_fst_addUniqueTask {acc : List (ℤ × Option ℚ)}
    {s : ScheduledTaskSegment} {tid : ℤ} :
    tid ∈ (addUniqueTask acc s).map Prod.fst ↔
      tid ∈ acc.map Prod.fst ∨ s.originalRequirementId = some tid := by
  cases ho : s.originalRequirementId with
  | none => simp [addUniqueTask_none ho]
  | some tid' =>
    rw [addUniqueTask_some ho]
    by_cases hin : acc.any (fun p => p.1 == tid')
    · rw [if_pos hin]
      simp only [Option.some.injEq]
      constructor
      · exact Or.inl
      · rintro (h | rfl)
        · exact h
        · rcases List.any_eq_true.1 hin with ⟨p, hp, hpe⟩
          rw [beq_iff_eq] at hpe
          exact hpe ▸ List.mem_map_of_mem Prod.fst hp
    · rw [if_neg hin]
      simp only [List.map_append, List.map_cons, List.map_nil, List.mem_append,
        List.mem_singleton, Option.some.injEq]
      constructor
      · rintro (h | h)
        · exact Or.inl h
        · exact Or.inr h.symm
      · rintro (h | rfl)
        · exact Or.inl h
        · exact Or.inr rfl

/-- Keys recorded by the whole `uniqueTasks` fold. -/
theorem mem_fst_uniqueTasks_foldl (segs : List ScheduledTaskSegment)
    (acc : List (ℤ × Option ℚ)) (tid : ℤ) :
    tid ∈ (segs.foldl addUniqueTask acc).map Prod.fst ↔
      tid ∈ acc.map Prod.fst ∨
        tid ∈ segs.filterMap (fun s => s.originalRequirementId) := by
  induction segs generalizing acc with
  | nil => simp
  | cons s rest ih =>
    simp only [List.foldl_cons, ih, mem_fst_addUniqueTask, List.filterMap_cons]
    cases ho : s.originalRequirementId with
    | none => simp
    | some tid' =>
      simp only [List.mem_cons, Option.some.injEq]
      constructor
      · rintro ((h | rfl) | h)
        · exact Or.inl h
        · exact Or.inr (Or.inl rfl)
        · exact Or.inr (Or.inr h)
      · rintro (h | (rfl | h))
        · exact Or.inl (Or.inl h)
        · exact Or.inl (Or.inr rfl)
        · exact Or.inr h

/-- The `uniqueTasks` fold keeps its keys pairwise distinct. -/
theorem nodup_fst_uniqueTasks_foldl (segs : List ScheduledTaskSegment)
    {acc : List (ℤ × Option ℚ)} (h : (acc.map Prod.fst).Nodup) :
    ((segs.foldl addUniqueTask acc).map Prod.fst).Nodup := by
  induction segs generalizing acc with
  | nil => exact h
  | cons s rest ih =>
    refine ih ?_
    cases ho : s.originalRequirementId with
    | none => rw [addUniqueTask_none ho]; exact h
    | some tid =>
      rw [addUniqueTask_some ho]
      by_cases hin : acc.any (fun p => p.1 == tid)
      · rw [if_pos hin]; exact h
      · rw [if_neg hin]
        rw [List.map_append, List.nodup_append]
        refine ⟨h, by simp, ?_⟩
        intro a ha hb
        simp only [List.map_cons, List.map_nil, List.mem_singleton] at hb
        subst hb
        rcases List.mem_map.1 ha with ⟨p, hp, hpe⟩
        exact hin (List.any_eq_true.2 ⟨p, hp, beq_iff_eq.2 hpe⟩)

/-- Every pair the `uniqueTasks` fold records comes from a segment with that
`originalRequirementId` and that segment's `total_training_hours`. -/
theorem pairs_uniqueTasks_foldl (segs : List ScheduledTaskSegment)
    (acc : List (ℤ × Option ℚ)) {p : ℤ × Option ℚ}
    (hp : p ∈ segs.foldl addUniqueTask acc) :
    p ∈ acc ∨ ∃ s ∈ segs, s.originalRequirementId = some p.1 ∧
      s.total_training_hours = p.2 := by
  induction segs generalizing acc with
  | nil => exact Or.inl hp
  | cons s rest ih =>
    rcases ih (addUniqueTask acc s) hp with h | ⟨s', hs', h⟩
    · cases ho : s.originalRequirementId with
      | none => rw [addUniqueTask_none ho] at h; exact Or.inl h
      | some tid =>
        rw [addUniqueTask_some ho] at h
        by_cases hin : acc.any (fun p => p.1 == tid)
        · rw [if_pos hin] at h; exact Or.inl h
        · rw [if_neg hin] at h
          rcases List.mem_append.1 h with h' | h'
          · exact Or.inl h'
          · rw [List.mem_singleton] at h'
            subst h'
            exact Or.inr ⟨s, List.mem_cons_self s rest, ho, rfl⟩
    · exact Or.inr ⟨s', List.mem_cons_of_mem s hs', h⟩

/-- The running-sum fold is the list sum. -/
theorem foldl_add_getD (l : List (ℤ × Option ℚ)) (a : ℚ) :
    l.foldl (fun sum p => sum + p.2.getD 0) a =
      a + (l.map (fun p => p.2.getD 0)).sum := by
  induction l generalizing a with
  | nil => simp
  | cons p rest ih =>
    simp only [List.foldl_cons, List.map_cons, List.sum_cons, ih]
    ring

/-- When `total_training_hours` is a function of the task id on the stored
segments, the deduplicated hour total is the sum of that function over the
set of distinct task ids present. -/
theorem displayHoursOf_eq_sum {segs : List ScheduledTaskSegment} {f : ℤ → ℚ}
    (hf : ∀ s ∈ segs, ∀ tid : ℤ, s.originalRequirementId = some tid →
      s.total_training_hours = some (f tid)) :
    displayHoursOf segs =
      ∑ tid ∈ (segs.filterMap (fun s => s.originalRequirementId)).toFinset,
        f tid := by
  unfold displayHoursOf uniqueTasksPairs
  rw [foldl_add_getD, zero_add]
  have hmap : (segs.foldl addUniqueTask []).map (fun p => p.2.getD 0) =
      (segs.foldl addUniqueTask []).map (fun p => f p.1) := by
    refine List.map_congr_left ?_
    intro p hp
    rcases pairs_uniqueTasks_foldl segs [] hp with h | ⟨s, hs, hid, hth⟩
    · exact absurd h (List.not_mem_nil p)
    · rw [hf s hs p.1 hid] at hth
      rw [← hth]
      rfl
  rw [hmap]
  have hnodup : (((segs.foldl addUniqueTask []).map Prod.fst)).Nodup :=
    nodup_fst_uniqueTasks_foldl segs (by simp)
  have hsum := List.sum_toFinset f hnodup
  have hmm : ((segs.foldl addUniqueTask []).map Prod.fst).map f =
      (segs.foldl addUniqueTask []).map (fun p => f p.1) := by
    rw [List.map_map]
    rfl
  rw [hmm] at hsum
  rw [← hsum]
  congr 1
  ext tid
  simp only [List.mem_toFinset]
  simpa using mem_fst_uniqueTasks_foldl segs [] tid

/-! ### Top-level helpers for the claims -/

/-- The final top of the full render pass is the total grid height. -/
theorem totalGridHeight_eq (reqs : List ScheduledTaskSegment) :
    (renderGroups reqs (resourceGroups reqs) 0).2.2 = totalGridHeight reqs := by
  rw [renderGroups_final_top]
  unfold totalGridHeight
  omega

/-- Every rendered task re-renders its own segment at its own top, and its
row fits between the first header band and the total grid height. -/
theorem rendered_task_spec {reqs : List ScheduledTaskSegment}
    {t : TaskRenderInfo} (ht : t ∈ tasksToRender reqs) :
    renderSeg t.top t.seg = some t ∧ RESOURCE_HEADER_HEIGHT ≤ t.top ∧
      t.top + MACHINE_ROW_HEIGHT ≤ totalGridHeight reqs := by
  unfold tasksToRender at ht
  rcases renderGroups_forall_tasks ht with ⟨⟨g, _, m, _, s, _, hrend⟩, hle, hub⟩
  have hseg : t.seg = s := (renderSeg_spec hrend).1
  rw [← hseg] at hrend
  rw [totalGridHeight_eq] at hub
  exact ⟨hrend, by simpa using hle, hub⟩

/-- Every input segment carrying the four guarded fields is rendered with
the horizontal-layout geometry. -/
theorem valid_seg_rendered {reqs : List ScheduledTaskSegment}
    {s : ScheduledTaskSegment} {r : ℤ} {d off hh : ℚ} (hmem : s ∈ reqs)
    (hr : s.resource_id = some r) (hd : s.start_day = some d)
    (ho : s.start_hour_offset = some off) (hh' : s.segment_hours = some hh) :
    ∃ t ∈ tasksToRender reqs, t.seg = s ∧
      t.left = (max 1 d - 1) * DAY_WIDTH + off / DAILY_HOUR_LIMIT * DAY_WIDTH ∧
      t.width = max (hh / DAILY_HOUR_LIMIT * DAY_WIDTH) 4 := by
  rcases seg_in_resourceGroups hmem hr with ⟨g, hg, _, m, hm, _, hsin⟩
  rcases renderGroups_exists_task hg hm hsin
    (fun k => renderSeg_isSome hd hr ho hh' k) 0 with ⟨t, ht, hseg⟩
  refine ⟨t, ht, hseg, ?_⟩
  rcases renderGroups_forall_tasks ht with ⟨⟨g', _, m', _, s', _, hrend⟩, _, _⟩
  rcases renderSeg_spec hrend with ⟨hseg', _, d', off', hh₂, hd', ho', hhs', _, hleft, hwidth⟩
  have hss : s' = s := by rw [← hseg', hseg]
  subst hss
  rw [hd] at hd'
  rw [ho] at ho'
  rw [hh'] at hhs'
  cases hd'
  cases ho'
  cases hhs'
  exact ⟨hleft, hwidth⟩

/-- A segment contributing to `resourceMinMax r` carries `resource_id = r`. -/
theorem mmValid_resource_id {r : ℤ} {s : ScheduledTaskSegment}
    (h : (mmValid r s).isSome = true) : s.resource_id = some r := by
  cases hr : s.resource_id with
  | none => simp [mmValid, hr] at h
  | some r' =>
    cases hd : s.start_day with
    | none => simp [mmValid, hr, hd] at h
    | some d =>
      cases hn : s.duration_days with
      | none => simp [mmValid, hr, hd, hn] at h
      | some n =>
        simp only [mmValid, hr, hd, hn] at h
        by_cases hre : r' = r
        · rw [hre]
        · rw [if_neg hre] at h
          simp at h

/-! ### Claim C1 — horizontal layout geometry -/

/-- C1: every valid segment (resource id, start day, hour offset and segment
hours present) is rendered with
`horizontalOffset = (max(1, startDay) - 1) * 30 + (startHourOffset / 8) * 30`
and `pixelWidth = max((segmentHours / 8) * 30, 4)`. -/
theorem claim1_horizontal_geometry {reqs : List ScheduledTaskSegment}
    {s : ScheduledTaskSegment} {r : ℤ} {d off hh : ℚ} (hmem : s ∈ reqs)
    (hr : s.resource_id = some r) (hd : s.start_day = some d)
    (ho : s.start_hour_offset = some off) (hh' : s.segment_hours = some hh) :
    ∃ t ∈ tasksToRender reqs, t.seg = s ∧
      t.left = (max 1 d - 1) * 30 + off / 8 * 30 ∧
      t.width = max (hh / 8 * 30) 4 := by
  rcases valid_seg_rendered hmem hr hd ho hh' with ⟨t, ht, hseg, hleft, hwidth⟩
  exact ⟨t, ht, hseg, hleft, hwidth⟩

/-- C1 witness: the segment {startDay 1, startHourOffset 4, segmentHours 4}
renders at horizontalOffset 15 with pixelWidth 15. -/
theorem claim1_horizontal_geometry_witness :
    ∃ t ∈ tasksToRender [segEx1], t.seg = segEx1 ∧ t.left = 15 ∧ t.width = 15 := by
  rcases claim1_horizontal_geometry (List.mem_singleton.2 rfl)
    (rfl : segEx1.resource_id = some 1) (rfl : segEx1.start_day = some 1)
    (rfl : segEx1.start_hour_offset = some 4)
    (rfl : segEx1.segment_hours = some 4) with ⟨t, ht, hseg, hleft, hwidth⟩
  refine ⟨t, ht, hseg, ?_, ?_⟩
  · rw [hleft]; norm_num
  · rw [hwidth]; norm_num

/-! ### Claim C2 — machine ordering within a resource -/

/-- C2 counterexample: category `Unknown` is NOT treated as `Machine`.
With the items Alpha (Unknown) and Beta (Machine) — which the claim puts in
one category, hence in name order Alpha, Beta — the code emits Beta first,
because `'Unknown' || 'Machine'` keeps `'Unknown'`, which loses the
“categories differ” comparison against a true Machine. -/
theorem claim2_counterexample :
    (resourceGroups [segAlpha, segBeta]).map
        (fun g => g.machines.map (fun m => (m.machineName, claimedEffCat m.resourceCategory))) =
      [[("Beta", Category.Machine), ("Alpha", Category.Machine)]] ∧
    ("Alpha" : String) < "Beta" := by
  constructor
  · rfl
  · exact String.lt_iff_toList_lt.2 (by decide)

/-- C2 (amended): within each resource group the machine list is pairwise
ordered so that an entry of effective category Machine (a missing category
counts as Machine, the category Unknown does not) never follows an entry of
another effective category, and entries of equal effective category are in
name order; resource groups themselves are keyed by resource id in
first-seen input order. -/
theorem claim2_machine_ordering :
    (∀ reqs : List ScheduledTaskSegment, ∀ g ∈ resourceGroups reqs,
      g.machines.Pairwise MachOrder) ∧
    (∀ reqs : List ScheduledTaskSegment,
      (resourceGroups reqs).map (fun g => g.resourceId) = firstSeenIds reqs) ∧
    (resourceGroups [segLathe, segCAD, segDrill]).map
        (fun g => g.machines.map (fun m => m.machineName)) = [["Drill", "Lathe", "CAD"]] := by
  refine ⟨?_, ?_, ?_⟩
  · intro reqs g hg
    exact machines_pairwise hg
  · intro reqs
    exact ids_resourceGroups reqs
  · rfl

/-- C2 witness: the ordering facts instantiated on the one-segment input
`[segLathe]` and its concrete group. -/
theorem claim2_machine_ordering_witness :
    groupLathe.machines.Pairwise MachOrder ∧
    (resourceGroups [segLathe]).map (fun g => g.resourceId) = firstSeenIds [segLathe] :=
  ⟨claim2_machine_ordering.1 [segLathe] groupLathe (by decide),
   claim2_machine_ordering.2.1 [segLathe]⟩

/-! ### Claim C3 — engagement spans -/

/-- C3: a resource with at least one valid segment (resource id, start day
and duration present) gets exactly one engagement bar, whose
`travelStartDay = max 1 (min - 1)`, `travelEndDay = max + 1` and
`totalDuration = max 1 (travelEndDay - travelStartDay + 1)`, where `min` is
the least start day and `max` the greatest `startDay + durationDays - 1`
over the resource's valid segments; a resource with no valid segment gets
no bar. -/
theorem claim3_engagement_spans (reqs : List ScheduledTaskSegment) (r : ℤ) :
    ((∃ s ∈ reqs, (mmValid r s).isSome = true) →
      (totalEngagementBars reqs).countP (fun b => b.resourceId == r) = 1 ∧
      ∀ b ∈ totalEngagementBars reqs, b.resourceId = r →
        ∃ mn mx : ℚ,
          (∀ s ∈ reqs, ∀ d e : ℚ, mmValid r s = some (d, e) → mn ≤ d ∧ e ≤ mx) ∧
          (∃ s ∈ reqs, ∃ e : ℚ, mmValid r s = some (mn, e)) ∧
          (∃ s ∈ reqs, ∃ d : ℚ, mmValid r s = some (d, mx)) ∧
          b.travelStartDay = max 1 (mn - 1) ∧ b.travelEndDay = mx + 1 ∧
          b.totalDuration = max 1 (b.travelEndDay - b.travelStartDay + 1)) ∧
    ((¬ ∃ s ∈ reqs, (mmValid r s).isSome = true) →
      (totalEngagementBars reqs).countP (fun b => b.resourceId == r) = 0) := by
  constructor
  · rintro ⟨s, hs, hsome⟩
    have hmm : resourceMinMax reqs r ≠ none := by
      intro hnone
      rw [resourceMinMax_none_iff] at hnone
      rw [hnone s hs] at hsome
      simp at hsome
    rcases Option.ne_none_iff_exists'.1 hmm with ⟨⟨mn, mx⟩, hmmx⟩
    constructor
    · have hgrp : r ∈ (resourceGroups reqs).map (fun g => g.resourceId) :=
        (mem_resourceGroups_ids reqs).2 ⟨s, hs, mmValid_resource_id hsome⟩
      rcases List.mem_map.1 hgrp with ⟨g₀, hg₀, hid⟩
      unfold totalEngagementBars
      rw [renderGroups_bars_countP reqs (resourceGroups reqs) 0 r]
      rw [countP_groups_by_id (nodup_resourceGroups_ids reqs)
        (fun rid => (resourceMinMax reqs rid).isSome) hg₀ hid]
      rw [hmmx]
      rfl
    · intro b hb hbid
      unfold totalEngagementBars at hb
      rcases renderGroups_forall_bars hb with ⟨⟨g, _, mn', mx', hmm', hbidg, hts, hte, htd⟩, _, _⟩
      rw [hbid] at hbidg
      rw [← hbidg] at hmm'
      rw [hmmx] at hmm'
      injection hmm' with hpair
      injection hpair with h1 h2
      subst h1
      subst h2
      rcases resourceMinMax_spec hmmx with ⟨hbound, hattmn, hattmx⟩
      exact ⟨mn, mx, hbound, hattmn, hattmx, hts, hte, htd⟩
  · intro hno
    have hnone : resourceMinMax reqs r = none := by
      rw [resourceMinMax_none_iff]
      intro s hs
      cases hv : mmValid r s with
      | none => rfl
      | some de => exact absurd ⟨s, hs, by rw [hv]; rfl⟩ hno
    unfold totalEngagementBars
    rw [renderGroups_bars_countP reqs (resourceGroups reqs) 0 r]
    refine List.countP_eq_zero.2 ?_
    intro g hg
    by_cases hid : g.resourceId = r
    · rw [hid, hnone]
      simp
    · simp [hid]

/-- C3 witness: segments (startDay 3, 2 days) and (startDay 10, 1 day) on
one resource give exactly one bar with travelStartDay 2, travelEndDay 11,
totalDuration 10. -/
theorem claim3_engagement_spans_witness :
    (totalEngagementBars [segC3a, segC3b]).countP (fun b => b.resourceId == 1) = 1 ∧
    (totalEngagementBars [segC3a, segC3b]).map
        (fun b => (b.travelStartDay, b.travelEndDay, b.totalDuration)) =
      [((2 : ℚ), (11 : ℚ), (10 : ℚ))] :=
  ⟨((claim3_engagement_spans [segC3a, segC3b] 1).1
      ⟨segC3a, List.mem_cons_self segC3a [segC3b], by decide⟩).1,
   by norm_num [totalEngagementBars, renderGroups, engagementOf, resourceMinMax,
     resourceGroups, rawGroups, addToGroups, addSegToGroups, addMachineSeg,
     finalizeGroup, finalizeMachine, stableSort, sortInsert, mmValid,
     renderMachines, segC3a, segC3b, segEx1, machineNameOf, resourceNameOf]⟩

/-! ### Claim C4 — deduplicated hour totals -/

/-- C4: whenever the stored segments of an item agree on the total hours of
each task id (the data-model invariant), the displayed `displayHours` is the
sum of those totals over the distinct task ids present — one contribution
per task, and none from segments without a task id. -/
theorem claim4_display_hours {reqs : List ScheduledTaskSegment}
    {g : ResourceGroup} {m : MachineGroup} {f : ℤ → ℚ}
    (hg : g ∈ resourceGroups reqs) (hm : m ∈ g.machines)
    (hf : ∀ s ∈ m.requirements, ∀ tid : ℤ, s.originalRequirementId = some tid →
      s.total_training_hours = some (f tid)) :
    m.displayHours =
      ∑ tid ∈ (m.requirements.filterMap (fun s => s.originalRequirementId)).toFinset,
        f tid := by
  rw [displayHours_final hg hm]
  exact displayHoursOf_eq_sum hf

/-- C4 witness: task 10 split into two slices of 8 total hours plus task 11
with 3 total hours displays 11 hours, not 19. -/
theorem claim4_display_hours_witness :
    machineC4.displayHours =
      ∑ tid ∈ ((machineC4.requirements.filterMap
          (fun s => s.originalRequirementId)).toFinset), hoursC4 tid ∧
    machineC4.displayHours = 11 := by
  constructor
  · have hgroups : resourceGroups [segC4a, segC4b, segC4c] = [groupC4] := by
      norm_num [resourceGroups, rawGroups, addToGroups, addSegToGroups,
        addMachineSeg, finalizeGroup, finalizeMachine, stableSort, sortInsert,
        displayHoursOf, uniqueTasksPairs, addUniqueTask, machineNameOf,
        resourceNameOf, groupC4, machineC4, segC4a, segC4b, segC4c, segEx1]
      refine ⟨fun h => absurd h (by decide), fun h => absurd h (by decide)⟩
    have hg : groupC4 ∈ resourceGroups [segC4a, segC4b, segC4c] := by
      rw [hgroups]
      exact List.mem_singleton.2 rfl
    exact claim4_display_hours hg (List.mem_singleton.2 rfl)
      (by
        intro s hs tid htid
        fin_cases hs <;>
          simp only [machineC4, segC4a, segC4b, segC4c, segEx1,
            Option.some.injEq] at htid <;>
          subst htid <;> decide)
  · rfl

/-! ### Claim C5 — rest-day classification -/

/-- C5: with `dayOfYear = (month-1)*30 + day` and
`dayOfWeek = (dayOfYear-1) mod 7`, a day is a rest day exactly when
`dayOfWeek = 5` without Saturday work or `dayOfWeek = 6` without Sunday
work, and every `dayOfWeek < 5` day is a work day regardless of the flags. -/
theorem claim5_rest_days (sat sun : Bool) (month day : ℤ)
    (_hm : 1 ≤ month) (_hd : 1 ≤ day) :
    (isWeekend sat sun month day = true ↔
      (((month - 1) * 30 + day - 1) % 7 = 5 ∧ sat = false) ∨
      (((month - 1) * 30 + day - 1) % 7 = 6 ∧ sun = false)) ∧
    (((month - 1) * 30 + day - 1) % 7 < 5 →
      isWeekend sat sun month day = false) := by
  unfold isWeekend daysPerMonth
  constructor
  · simp only [Bool.or_eq_true, Bool.and_eq_true, beq_iff_eq,
      Bool.not_eq_true']
    constructor
    · rintro (⟨h5, hsat⟩ | ⟨h6, hsun⟩)
      · exact Or.inl ⟨by omega, hsat⟩
      · exact Or.inr ⟨by omega, hsun⟩
    · rintro (⟨h5, hsat⟩ | ⟨h6, hsun⟩)
      · exact Or.inl ⟨by omega, hsat⟩
      · exact Or.inr ⟨by omega, hsun⟩
  · intro hlt
    simp only [Bool.or_eq_false_iff, Bool.and_eq_false_iff]
    constructor
    · left
      simp only [beq_eq_false_iff_ne]
      omega
    · left
      simp only [beq_eq_false_iff_ne]
      omega

/-- C5 witness: with both flags off, days 6 and 7 of the cycle are rest
days; day 8 (`dayOfWeek = 0`) is a work day even with both flags off. -/
theorem claim5_rest_days_witness :
    isWeekend false false 1 6 = true ∧ isWeekend false false 1 7 = true ∧
    isWeekend false false 1 8 = false :=
  ⟨(claim5_rest_days false false 1 6 (by decide) (by decide)).1.mpr
      (Or.inl ⟨by decide, rfl⟩),
   (claim5_rest_days false false 1 7 (by decide) (by decide)).1.mpr
      (Or.inr ⟨by decide, rfl⟩),
   (claim5_rest_days false false 1 8 (by decide) (by decide)).2 (by decide)⟩

/-! ### Claim C6 — the hour offset stays inside the day column -/

/-- C6: a rendered segment whose `startDay ≥ 1` and
`0 ≤ startHourOffset < 8` has its left edge inside its own day column:
`(startDay-1)*30 ≤ left < startDay*30`. -/
theorem claim6_offset_bounds {reqs : List ScheduledTaskSegment}
    {t : TaskRenderInfo} {d off : ℚ} (ht : t ∈ tasksToRender reqs)
    (hd : t.seg.start_day = some d) (ho : t.seg.start_hour_offset = some off)
    (h1 : 1 ≤ d) (h2 : 0 ≤ off) (h3 : off < 8) :
    (d - 1) * 30 ≤ t.left ∧ t.left < d * 30 := by
  rcases rendered_task_spec ht with ⟨hrend, _, _⟩
  rcases renderSeg_spec hrend with ⟨_, _, d', off', hh', hd', ho', _, _, hleft, _⟩
  rw [hd] at hd'
  rw [ho] at ho'
  cases hd'
  cases ho'
  rw [hleft]
  unfold DAY_WIDTH DAILY_HOUR_LIMIT
  rw [max_eq_right h1]
  constructor
  · have hoff : 0 ≤ off / 8 * 30 := by positivity
    linarith
  · have hoff : off / 8 * 30 < 30 := by
      have h8 : off / 8 < 1 := (div_lt_one (by norm_num)).2 h3
      linarith
    linarith

/-- C6 witness: the rendered segment of `segEx1` (startDay 1, offset 4)
satisfies `0 ≤ left < 30`. -/
theorem claim6_offset_bounds_witness :
    ∃ t ∈ tasksToRender [segEx1], ((1 : ℚ) - 1) * 30 ≤ t.left ∧ t.left < 1 * 30 := by
  rcases valid_seg_rendered (s := segEx1) (List.mem_singleton.2 rfl)
    rfl rfl rfl rfl with ⟨t, ht, hseg, _, _⟩
  exact ⟨t, ht, claim6_offset_bounds ht
    (show t.seg.start_day = some 1 by rw [hseg]; rfl)
    (show t.seg.start_hour_offset = some 4 by rw [hseg]; rfl)
    (by norm_num) (by norm_num) (by norm_num)⟩

/-! ### Claim C7 — malformed segments are dropped without side damage -/

/-- C7: every rendered entry carries all four guarded fields (so a segment
missing any of them is never rendered), and every input segment carrying
all four is rendered with its computed geometry — the presence of malformed
segments cannot suppress a valid one. -/
theorem claim7_malformed_isolation (reqs : List ScheduledTaskSegment) :
    (∀ t ∈ tasksToRender reqs,
      t.seg.resource_id.isSome = true ∧ t.seg.start_day.isSome = true ∧
      t.seg.start_hour_offset.isSome = true ∧ t.seg.segment_hours.isSome = true) ∧
    (∀ s ∈ reqs, ∀ (r : ℤ) (d off hh : ℚ), s.resource_id = some r →
      s.start_day = some d → s.start_hour_offset = some off →
      s.segment_hours = some hh →
      ∃ t ∈ tasksToRender reqs, t.seg = s ∧
        t.left = (max 1 d - 1) * 30 + off / 8 * 30 ∧
        t.width = max (hh / 8 * 30) 4) := by
  constructor
  · intro t ht
    rcases rendered_task_spec ht with ⟨hrend, _, _⟩
    rcases renderSeg_spec hrend with ⟨_, _, d, off, hh, hd, ho, hhs, hrid, _, _⟩
    exact ⟨hrid, by rw [hd]; rfl, by rw [ho]; rfl, by rw [hhs]; rfl⟩
  · intro s hs r d off hh hr hd ho hh'
    exact valid_seg_rendered hs hr hd ho hh'

/-- C7 witness: with a malformed segment (missing `start_hour_offset`) and
a valid one on the same resource, the valid one is still rendered. -/
theorem claim7_malformed_isolation_witness :
    ∃ t ∈ tasksToRender [segBad7, segGood7], t.seg = segGood7 ∧
      t.left = (max 1 1 - 1) * 30 + 4 / 8 * 30 ∧
      t.width = max ((4 : ℚ) / 8 * 30) 4 :=
  (claim7_malformed_isolation [segBad7, segGood7]).2 segGood7
    (List.mem_cons_of_mem segBad7 (List.mem_singleton.2 rfl)) 1 1 4 4
    rfl rfl rfl rfl

/-! ### Claim C8 — placeholder name for items without a machine name -/

/-- C8 counterexample: the fallback item name is `"Unknown Machine"`, not
`"Unknown"` as the claim states. -/
theorem claim8_counterexample :
    (resourceGroups [segNoName]).map
        (fun g => g.machines.map (fun m => m.machineName)) = [["Unknown Machine"]] ∧
    ("Unknown Machine" : String) ≠ "Unknown" := by
  constructor
  · rfl
  · decide

/-- C8 (amended): a segment with a resource id but no machine name is keyed
under the fixed placeholder `"Unknown Machine"`, which is the item name of
the resulting item group. -/
theorem claim8_unknown_machine {reqs : List ScheduledTaskSegment}
    {s : ScheduledTaskSegment} {r : ℤ} (hmem : s ∈ reqs)
    (hr : s.resource_id = some r) (hname : s.machine_name = none) :
    ∃ g ∈ resourceGroups reqs, g.resourceId = r ∧
      ∃ m ∈ g.machines, m.machineName = "Unknown Machine" ∧
        s ∈ m.requirements := by
  rcases seg_in_resourceGroups hmem hr with ⟨g, hg, hid, m, hm, hmn, hsin⟩
  refine ⟨g, hg, hid, m, hm, ?_, hsin⟩
  rw [hmn]
  unfold machineNameOf
  rw [hname]

/-- C8 witness: the nameless segment lands under `"Unknown Machine"`. -/
theorem claim8_unknown_machine_witness :
    ∃ g ∈ resourceGroups [segNoName], g.resourceId = 1 ∧
      ∃ m ∈ g.machines, m.machineName = "Unknown Machine" ∧
        segNoName ∈ m.requirements :=
  claim8_unknown_machine (List.mem_singleton.2 rfl) rfl rfl

/-! ### Claim C9 — validity is checked per stage, not globally -/

/-- C9: a segment with resource id, start day and duration but a missing
hour offset (or missing segment hours) is excluded from the rendered tasks,
yet still sits in its resource's item group and still bounds that
resource's engagement min/max. -/
theorem claim9_per_stage_validity {reqs : List ScheduledTaskSegment}
    {s : ScheduledTaskSegment} {r : ℤ} {d n : ℚ} (hmem : s ∈ reqs)
    (hr : s.resource_id = some r) (hd : s.start_day = some d)
    (hn : s.duration_days = some n)
    (hbad : s.start_hour_offset = none ∨ s.segment_hours = none) :
    (∀ t ∈ tasksToRender reqs, t.seg ≠ s) ∧
    (∃ g ∈ resourceGroups reqs, g.resourceId = r ∧
      ∃ m ∈ g.machines, s ∈ m.requirements) ∧
    (∃ mn mx : ℚ, resourceMinMax reqs r = some (mn, mx) ∧
      mn ≤ d ∧ d + n - 1 ≤ mx) := by
  refine ⟨?_, ?_, ?_⟩
  · intro t ht heq
    rcases rendered_task_spec ht with ⟨hrend, _, _⟩
    rcases renderSeg_spec hrend with ⟨_, _, d', off', hh', _, ho', hhs', _, _, _⟩
    rw [heq] at ho' hhs'
    rcases hbad with hb | hb
    · rw [hb] at ho'
      exact absurd ho' (by simp)
    · rw [hb] at hhs'
      exact absurd hhs' (by simp)
  · rcases seg_in_resourceGroups hmem hr with ⟨g, hg, hid, m, hm, _, hsin⟩
    exact ⟨g, hg, hid, m, hm, hsin⟩
  · have hv : mmValid r s = some (d, d + n - 1) := by
      unfold mmValid
      rw [hr, hd, hn]
      simp
    have hmm : resourceMinMax reqs r ≠ none := by
      intro hnone
      rw [resourceMinMax_none_iff] at hnone
      rw [hnone s hmem] at hv
      exact absurd hv (by simp)
    rcases Option.ne_none_iff_exists'.1 hmm with ⟨⟨mn, mx⟩, hmmx⟩
    rcases resourceMinMax_spec hmmx with ⟨hbound, _, _⟩
    exact ⟨mn, mx, hmmx, hbound s hmem d (d + n - 1) hv⟩

/-- C9 witness: `segBad9` (startDay 3, 2 days, no hour offset) is never
rendered, is grouped, and stretches its resource's min/max window. -/
theorem claim9_per_stage_validity_witness :
    (∀ t ∈ tasksToRender [segBad9], t.seg ≠ segBad9) ∧
    (∃ g ∈ resourceGroups [segBad9], g.resourceId = 1 ∧
      ∃ m ∈ g.machines, segBad9 ∈ m.requirements) ∧
    (∃ mn mx : ℚ, resourceMinMax [segBad9] 1 = some (mn, mx) ∧
      mn ≤ 3 ∧ 3 + 2 - 1 ≤ mx) :=
  claim9_per_stage_validity (List.mem_singleton.2 rfl) rfl rfl rfl (Or.inl rfl)

/-! ### Claim C10 — vertical layout stays inside the grid -/

/-- C10: every rendered task row starts at or below the first resource
header band and ends at or above the grid bottom, and every engagement bar
sits in a header band inside the grid:
`RESOURCE_HEADER_HEIGHT ≤ t.top`, `t.top + MACHINE_ROW_HEIGHT ≤ totalGridHeight`,
`b.top + RESOURCE_HEADER_HEIGHT ≤ totalGridHeight` (hence
`b.top ≤ totalGridHeight - RESOURCE_HEADER_HEIGHT`). -/
theorem claim10_vertical_bounds (reqs : List ScheduledTaskSegment) :
    (∀ t ∈ tasksToRender reqs, RESOURCE_HEADER_HEIGHT ≤ t.top ∧
      t.top + MACHINE_ROW_HEIGHT ≤ totalGridHeight reqs) ∧
    (∀ b ∈ totalEngagementBars reqs,
      b.top + RESOURCE_HEADER_HEIGHT ≤ totalGridHeight reqs ∧
      b.top ≤ totalGridHeight reqs - RESOURCE_HEADER_HEIGHT) := by
  constructor
  · intro t ht
    rcases rendered_task_spec ht with ⟨_, hle, hub⟩
    exact ⟨hle, hub⟩
  · intro b hb
    unfold totalEngagementBars at hb
    rcases renderGroups_forall_bars hb with ⟨_, _, hub⟩
    rw [totalGridHeight_eq] at hub
    exact ⟨hub, by omega⟩

/-- C10 witness: on `[segEx1]` the single task row spans pixels 40–70 of a
70-pixel grid and the engagement bar sits in the top header band. -/
theorem claim10_vertical_bounds_witness :
    (∃ t ∈ tasksToRender [segEx1], RESOURCE_HEADER_HEIGHT ≤ t.top ∧
      t.top + MACHINE_ROW_HEIGHT ≤ totalGridHeight [segEx1]) ∧
    (barEx1.top + RESOURCE_HEADER_HEIGHT ≤ totalGridHeight [segEx1] ∧
      barEx1.top ≤ totalGridHeight [segEx1] - RESOURCE_HEADER_HEIGHT) := by
  constructor
  · rcases valid_seg_rendered (s := segEx1) (List.mem_singleton.2 rfl)
      rfl rfl rfl rfl with ⟨t, ht, _, _, _⟩
    exact ⟨t, ht, (claim10_vertical_bounds [segEx1]).1 t ht⟩
  · refine (claim10_vertical_bounds [segEx1]).2 barEx1 ?_
    have h : totalEngagementBars [segEx1] = [barEx1] := by
      norm_num [totalEngagementBars, renderGroups, engagementOf, resourceMinMax,
        resourceGroups, rawGroups, addToGroups, addSegToGroups, addMachineSeg,
        finalizeGroup, finalizeMachine, stableSort, sortInsert, mmValid,
        renderMachines, segEx1, machineNameOf, resourceNameOf, barEx1]
      exact fun h => absurd h (by decide)
    rw [h]
    exact List.mem_singleton.2 rfl

end Gantt
